import Mathlib

/-!
Verification of the move-evaluation and elimination engine of the
llama-snakes game (shallow embedding of the Go source, most advanced
variant).

Modelling conventions:
* Go `int` coordinates become `Int`; Go non-negative counts (`Size`,
  `NumPlayers`, move counters) become `Nat`.
* Go `map[Position]bool` used as a set becomes `Finset Position`
  (a missing key reads as `false`, i.e. non-membership).
* Players are identified by their dense index `0 .. NumPlayers-1`
  (the Go code keys maps by the distinct strings `PlayerIDs[i]`; the
  index is a faithful stand-in because `PlayerIDs` has no duplicates).
  Cell markers (`Empty`, head and trail characters) become the `Cell`
  inductive.
* Go `float64` scores become `Rat` (exact arithmetic standing in for
  the floating-point computation; the formulas are identical).
* The per-player model/temperature configuration is opaque to the core
  logic (only forwarded to the external LLM call) and is omitted.
-/

namespace LlamaSnakes

/-- Coordinate on the grid (Go struct `Position`). -/
structure Position where
  row : Int
  col : Int
deriving DecidableEq, Repr

/-- Move direction (Go `type Direction string` with the four constants). -/
inductive Direction where
  | up
  | down
  | left
  | right
deriving DecidableEq, Repr

/-- Cell marker on the grid: Go uses the strings `Empty = " "`,
`PlayerIDs[i]` for a head and `TrailChars[i]` for a trail. -/
inductive Cell where
  | empty
  | head (player : Nat)
  | trail (player : Nat)
deriving DecidableEq, Repr

/-- A single move record (Go struct `Move`).  The Go field `From` is
renamed `fromPos` (`from` is a Lean keyword), `To` becomes `toPos`. -/
structure Move where
  player : Nat
  direction : Direction
  fromPos : Position
  toPos : Position
deriving DecidableEq, Repr

/-- The complete game state (Go struct `GameState`).  `grid` is total
over positions; only in-bounds cells are ever read by the embedded
code. -/
structure GameState where
  grid : Position → Cell
  size : Nat
  numPlayers : Nat
  playerPos : Nat → Position
  active : Nat → Bool
  moves : List Move
  visited : Finset Position

/-- Go `IsValidMove`: a position is valid when it is in bounds and not
yet visited. -/
def IsValidMove (game : GameState) (pos : Position) : Bool :=
  if pos.row < 0 ∨ pos.row ≥ (game.size : Int) ∨ pos.col < 0 ∨ pos.col ≥ (game.size : Int) then
    false
  else if pos ∈ game.visited then
    false
  else
    true

/-- Go helper `getNewPosition`: one-step coordinate arithmetic.  The
same `switch` is inlined inside Go `MakeMove`. -/
def getNewPosition (pos : Position) (dir : Direction) : Position :=
  match dir with
  | .up => ⟨pos.row - 1, pos.col⟩
  | .down => ⟨pos.row + 1, pos.col⟩
  | .left => ⟨pos.row, pos.col - 1⟩
  | .right => ⟨pos.row, pos.col + 1⟩

/-- The four neighbour positions in the fixed order up, down, left,
right; this list literal appears verbatim in Go `countAvailableMoves`,
`countReachableTerritory` and `getAvailablePositions`. -/
def neighborPositions (pos : Position) : List Position :=
  [⟨pos.row - 1, pos.col⟩, ⟨pos.row + 1, pos.col⟩,
   ⟨pos.row, pos.col - 1⟩, ⟨pos.row, pos.col + 1⟩]

/-- Go `GetValidMoves`: the subset of the four directions whose
destination is valid, in the fixed order up, down, left, right. -/
def GetValidMoves (game : GameState) (player : Nat) : List Direction :=
  let currentPos := game.playerPos player
  let directions : List (Direction × Position) :=
    [(.up, ⟨currentPos.row - 1, currentPos.col⟩),
     (.down, ⟨currentPos.row + 1, currentPos.col⟩),
     (.left, ⟨currentPos.row, currentPos.col - 1⟩),
     (.right, ⟨currentPos.row, currentPos.col + 1⟩)]
  (directions.filter (fun d => IsValidMove game d.2)).map (fun d => d.1)

/-- Go `countAvailableMoves`: how many of the four neighbours of `pos`
are valid. -/
def countAvailableMoves (game : GameState) (pos : Position) : Nat :=
  ((neighborPositions pos).filter (fun q => IsValidMove game q)).length

/-- Go `getAvailablePositions`: the valid neighbours themselves. -/
def getAvailablePositions (game : GameState) (pos : Position) : List Position :=
  (neighborPositions pos).filter (fun q => IsValidMove game q)

/-- Go `simulateMove`: a fresh state carrying only `Size` and a copy of
`Visited` with the destination (Go parameter `to`, a Lean keyword,
renamed `toPos`) additionally marked.  The remaining fields keep their
Go zero values (nil-map reads are `false`/zero, which the total
functions below reproduce). -/
def simulateMove (game : GameState) (toPos : Position) : GameState :=
  { grid := fun _ => Cell.empty
    size := game.size
    numPlayers := 0
    playerPos := fun _ => ⟨0, 0⟩
    active := fun _ => false
    moves := []
    visited := insert toPos game.visited }

/-- All in-bounds cells of a `size` × `size` board. -/
def boardCells (size : Nat) : Finset Position :=
  (Finset.Icc (0 : Int) ((size : Int) - 1) ×ˢ Finset.Icc (0 : Int) ((size : Int) - 1)).image
    (fun rc => ⟨rc.1, rc.2⟩)

/-- The in-bounds cells not yet in the visited set; exactly the
positions on which `IsValidMove` answers `true`. -/
def freeCells (game : GameState) : Finset Position :=
  (boardCells game.size).filter (fun q => q ∉ game.visited)

/-- Inner loop of the Go flood fill: for each candidate neighbour, if
it is not yet seen by the search and is a valid cell, mark it, enqueue
it and bump the counter. -/
def bfsVisitFold (game : GameState) (ns : List Position)
    (seen : Finset Position) (queue : List Position) (count : Nat) :
    Finset Position × List Position × Nat :=
  match ns with
  | [] => (seen, queue, count)
  | n :: rest =>
      if n ∉ seen ∧ IsValidMove game n = true then
        bfsVisitFold game rest (insert n seen) (queue ++ [n]) (count + 1)
      else
        bfsVisitFold game rest seen queue count

/-- Outer loop of the Go flood fill (`countReachableTerritory`): pop
the queue head, visit its four neighbours, repeat until the queue is
empty, returning the counter.  Termination: every accepted neighbour
simultaneously leaves `freeCells \ seen` (−1) and enters the queue
(+1), and the popped head leaves the queue, so the sum
`(freeCells \ seen).card + queue.length` drops by exactly one per
iteration. -/
def bfsLoop : GameState → Finset Position → List Position → Nat → Nat
  | _, _, [], count => count
  | game, seen, current :: rest, count =>
      let st := bfsVisitFold game (neighborPositions current) seen rest count
      bfsLoop game st.1 st.2.1 st.2.2
termination_by game seen queue _ => (freeCells game \ seen).card + queue.length
decreasing_by
  have key : ∀ (ns : List Position) (seen1 : Finset Position) (q1 : List Position) (c1 : Nat),
      (freeCells game \ (bfsVisitFold game ns seen1 q1 c1).1).card +
          (bfsVisitFold game ns seen1 q1 c1).2.1.length ≤
        (freeCells game \ seen1).card + q1.length := by
    intro ns
    induction ns with
    | nil => intro seen1 q1 _; simp [bfsVisitFold]
    | cons n rest2 ih =>
        intro seen1 q1 c1
        simp only [bfsVisitFold]
        split
        · rename_i hcond
          refine le_trans (ih (insert n seen1) (q1 ++ [n]) (c1 + 1)) ?_
          have hfree : n ∈ freeCells game := by
            have hb := hcond.2
            simp only [IsValidMove] at hb
            split at hb
            · exact absurd hb (by simp)
            · split at hb
              · exact absurd hb (by simp)
              · rename_i hbound hvis
                simp only [freeCells, boardCells, Finset.mem_filter, Finset.mem_image]
                push_neg at hbound
                refine ⟨⟨(n.row, n.col), ?_, rfl⟩, hvis⟩
                simp only [Finset.mem_product, Finset.mem_Icc]
                omega
          have hdiff : freeCells game \ insert n seen1 = (freeCells game \ seen1).erase n := by
            ext x
            simp only [Finset.mem_sdiff, Finset.mem_insert, Finset.mem_erase]
            tauto
          have hmem : n ∈ freeCells game \ seen1 := Finset.mem_sdiff.mpr ⟨hfree, hcond.1⟩
          have hcard := Finset.card_erase_of_mem hmem
          have hpos : 0 < (freeCells game \ seen1).card := Finset.card_pos.mpr ⟨n, hmem⟩
          rw [hdiff, hcard]
          simp only [List.length_append, List.length_cons, List.length_nil]
          omega
        · exact ih seen1 q1 c1
  have hk := key (neighborPositions current) seen rest count
  simp only [List.length_cons]
  omega

/-- Go `countReachableTerritory`: breadth-first flood fill starting at
`start`, with `start` pre-seen and pre-counted. -/
def countReachableTerritory (game : GameState) (start : Position) : Nat :=
  bfsLoop game {start} [start] 1

mutual

/-- Go `calculateDepthMobility`: average, over the valid neighbours of
`pos`, of the mobility at that neighbour plus (when at least one more
level remains) half of the recursive value one level deeper; `0` when
the depth is exhausted or no neighbour is valid. -/
def calculateDepthMobility (game : GameState) (pos : Position) (maxDepth : Nat) : Rat :=
  match maxDepth with
  | 0 => 0
  | d + 1 =>
      let moves := getAvailablePositions game pos
      if moves = [] then 0
      else mobilitySum game moves d / (moves.length : Rat)
termination_by (2 * maxDepth, 0)
decreasing_by
  apply Prod.Lex.left
  omega

/-- The summation loop inside Go `calculateDepthMobility`: for each
next position, simulate the step, add that position's immediate
mobility and, when `0 < d`, the deeper estimate weighted by `0.5`. -/
def mobilitySum (game : GameState) (moves : List Position) (d : Nat) : Rat :=
  match moves with
  | [] => 0
  | nextPos :: rest =>
      let simGame := simulateMove game nextPos
      ((countAvailableMoves simGame nextPos : Rat) +
        (if 0 < d then calculateDepthMobility simGame nextPos d * (1 / 2) else 0)) +
        mobilitySum game rest d
termination_by (2 * d + 1, moves.length + 1)
decreasing_by
  · apply Prod.Lex.left
    omega
  · apply Prod.Lex.right'
    · omega
    · simp only [List.length_cons]
      omega

end

/-- Go `calculateDistance`: squared Euclidean distance (the square
root is intentionally omitted in the source). -/
def calculateDistance (x1 y1 x2 y2 : Rat) : Rat :=
  let dx := x1 - x2
  let dy := y1 - y2
  dx * dx + dy * dy

/-- Go struct `MoveEvaluation` (field names lower-cased). -/
structure MoveEvaluation where
  direction : Direction
  newPos : Position
  immediateMoves : Nat
  reachableTerritory : Nat
  avgDepthMobility : Rat
  distanceFromCenter : Rat
  totalScore : Rat
  safetyLevel : String
deriving DecidableEq, Repr

/-- Go `calculateMoveScore`: weighted sum of territory (×2), deep
mobility (×3), immediate mobility (×5) and normalized
center-proximity (×1), with `maxDist = boardSize * boardSize`. -/
def calculateMoveScore (eval : MoveEvaluation) (boardSize : Nat) : Rat :=
  let score1 : Rat := 0 + (eval.reachableTerritory : Rat) * 2
  let score2 : Rat := score1 + eval.avgDepthMobility * 3
  let score3 : Rat := score2 + (eval.immediateMoves : Rat) * 5
  let maxDist : Rat := ((boardSize * boardSize : Nat) : Rat)
  let centerScore : Rat := (maxDist - eval.distanceFromCenter) / maxDist
  score3 + centerScore * 1

/-- Go `determineSafetyLevel`: the safety tier of a move evaluation,
decided in priority order from immediate mobility and territory. -/
def determineSafetyLevel (eval : MoveEvaluation) : String :=
  if eval.immediateMoves = 0 then "DEATH TRAP"
  else if 20 ≤ eval.reachableTerritory ∧ 3 ≤ eval.immediateMoves then "EXCELLENT"
  else if 12 ≤ eval.reachableTerritory ∧ 2 ≤ eval.immediateMoves then "GOOD"
  else if 2 ≤ eval.immediateMoves ∧ 6 ≤ eval.reachableTerritory then "MODERATE"
  else if eval.immediateMoves = 1 ∨ eval.reachableTerritory < 5 then "RISKY"
  else "DANGEROUS"

/-- Go `evaluateMove`: compute the destination, simulate it as
visited, then fill in every metric; `TotalScore` and `SafetyLevel` are
computed last from the already-filled fields (Go assigns them into the
same record; `determineSafetyLevel` does not read `TotalScore`). -/
def evaluateMove (game : GameState) (currentPos : Position) (dir : Direction) : MoveEvaluation :=
  let newPos := getNewPosition currentPos dir
  let simGame := simulateMove game newPos
  let centerRow : Rat := (game.size : Rat) / 2
  let centerCol : Rat := (game.size : Rat) / 2
  let base : MoveEvaluation :=
    { direction := dir
      newPos := newPos
      immediateMoves := countAvailableMoves simGame newPos
      reachableTerritory := countReachableTerritory simGame newPos
      avgDepthMobility := calculateDepthMobility simGame newPos 2
      distanceFromCenter :=
        calculateDistance (newPos.row : Rat) (newPos.col : Rat) centerRow centerCol
      totalScore := 0
      safetyLevel := "" }
  { base with
      totalScore := calculateMoveScore base game.size
      safetyLevel := determineSafetyLevel base }

/-- Go `MakeMove`: mark the old cell as trail, move the head, mark the
destination visited and append the move record.  Note the source
performs no validity check here.  Modelling caveat: the grid is a
total function, so this definition applies every effect for any
destination; in Go, an out-of-bounds destination panics at the slice
write `game.Grid[newPos.Row][newPos.Col]` — after the trail cell is
marked and `PlayerPos` updated, but before `Visited[newPos] = true`
and the move-log append.  Theorems therefore invoke this definition
only at in-bounds destinations, where it is exact. -/
def MakeMove (game : GameState) (player : Nat) (direction : Direction) : GameState :=
  let currentPos := game.playerPos player
  let oldPos := currentPos
  let newPos := getNewPosition currentPos direction
  { game with
      grid := fun q =>
        if q = newPos then Cell.head player
        else if q = oldPos then Cell.trail player
        else game.grid q
      playerPos := fun j => if j = player then newPos else game.playerPos j
      visited := insert newPos game.visited
      moves := game.moves ++ [{ player := player, direction := direction,
                                fromPos := oldPos, toPos := newPos }] }

/-- Elimination assignment in Go `PlayGame`:
`game.ActivePlayers[currentPlayer] = false`. -/
def eliminatePlayer (game : GameState) (player : Nat) : GameState :=
  { game with active := fun j => if j = player then false else game.active j }

/-- The active-player count computed by the loop in Go `PlayGame`
(`activeCount`). -/
def activeCount (game : GameState) : Nat :=
  ((List.range game.numPlayers).filter (fun i => game.active i)).length

/-- The `lastActivePlayer` computed by the same loop: the last (i.e.
highest-indexed) active player seen, `none` when no player is active
(Go's zero-value empty string). -/
def lastActivePlayer (game : GameState) : Option Nat :=
  (List.range game.numPlayers).foldl
    (fun acc i => if game.active i then some i else acc) none

/-- The inner rotation scan of Go `PlayGame`: advance the player index
(mod `numPlayers`) past eliminated players, checking at most `fuel`
(`= NumPlayers`) slots. -/
def scanActive (active : Nat → Bool) (numPlayers : Nat) (idx : Nat) : Nat → Nat
  | 0 => idx
  | fuel + 1 => if active idx then idx else scanActive active numPlayers ((idx + 1) % numPlayers) fuel

/-- One-game loop state of Go `PlayGame`: the mutable game plus the
loop-local `currentPlayerIndex` and `moveCount`. -/
structure LoopState where
  game : GameState
  currentPlayerIndex : Nat
  moveCount : Nat

/-- Result of one iteration of the Go `PlayGame` loop: continue with a
new state, finish (`some` winner index, or `none` for the draw branch
returning `""`), or abort with the `"error"` result. -/
inductive StepOutcome where
  | next (s : LoopState)
  | finished (winner : Option Nat)
  | fail

/-- The external Move Oracle (Go `GetLLMMove`, an HTTP call plus retry
loop): given the game, the player and their valid moves, it returns a
chosen direction or `none` for retry exhaustion / transport failure.
`GetLLMMove` only ever returns a direction drawn from `validMoves`
(ParseDirection validates membership), which callers may assume via an
explicit hypothesis. -/
def Oracle : Type :=
  GameState → Nat → List Direction → Option Direction

/-- The player the rotation scan lands on at the start of an
iteration. -/
def currentTurnPlayer (s : LoopState) : Nat :=
  scanActive s.game.active s.game.numPlayers s.currentPlayerIndex s.game.numPlayers

/-- One iteration of the Go `PlayGame` endless loop: scan to the next
active player, finish if at most one player is active, otherwise
either eliminate the current player (no valid moves) or consult the
oracle and execute the move. -/
def playGameStep (oracle : Oracle) (s : LoopState) : StepOutcome :=
  let idx := currentTurnPlayer s
  if activeCount s.game ≤ 1 then
    if activeCount s.game = 1 then .finished (lastActivePlayer s.game)
    else .finished none
  else
    let moveCount := s.moveCount + 1
    let validMoves := GetValidMoves s.game idx
    if validMoves = [] then
      .next ⟨eliminatePlayer s.game idx, (idx + 1) % s.game.numPlayers, moveCount⟩
    else
      match oracle s.game idx validMoves with
      | none => .fail
      | some direction =>
          .next ⟨MakeMove s.game idx direction, (idx + 1) % s.game.numPlayers, moveCount⟩

/-- Iterate `playGameStep` for at most `fuel` iterations, propagating
the first terminal outcome. -/
def runGame (oracle : Oracle) : Nat → LoopState → StepOutcome
  | 0, s => .next s
  | fuel + 1, s =>
      match playGameStep oracle s with
      | .next s' => runGame oracle fuel s'
      | out => out

/-- Word characters of the Go regexp class `\w` used by the word
boundary `\b`: ASCII letters, digits and underscore. -/
def isWordChar (c : Char) : Bool :=
  c.isAlphanum || c = '_'

/-- The name of each direction (the Go `Direction` constants are the
strings themselves). -/
def dirString : Direction → List Char
  | .up => ['u', 'p']
  | .down => ['d', 'o', 'w', 'n']
  | .left => ['l', 'e', 'f', 't']
  | .right => ['r', 'i', 'g', 'h', 't']

/-- Whitespace trimmed by Go `strings.TrimSpace` (restricted to the
ASCII white space characters; the claims only exercise ASCII). -/
def isSpaceChar (c : Char) : Bool :=
  c = ' ' || c = '\t' || c = '\n' || c = '\r'

/-- Go `strings.TrimSpace` on a character list. -/
def trimSpace (s : List Char) : List Char :=
  ((s.dropWhile isSpaceChar).reverse.dropWhile isSpaceChar).reverse

/-- Go `strings.ToLower` (ASCII case mapping; the claims only exercise
ASCII). -/
def lowerChars (s : List Char) : List Char :=
  s.map Char.toLower

/-- The first line of Go `ParseDirection`:
`strings.ToLower(strings.TrimSpace(response))`. -/
def normalizeResponse (s : List Char) : List Char :=
  lowerChars (trimSpace s)

/-- A standalone occurrence of the word `w` at index `i` of `r`, in
the sense of the Go regexp `\b w \b`: `w` occurs at `i`, and the
characters just before and just after it (when they exist) are not
word characters. -/
def wordAt (r : List Char) (i : Nat) (w : List Char) : Bool :=
  w.isPrefixOf (List.drop i r) &&
    (match i with
     | 0 => true
     | j + 1 =>
         match r[j]? with
         | none => false
         | some c => !isWordChar c) &&
    (match r[i + w.length]? with
     | none => true
     | some c => !isWordChar c)

/-- A standalone occurrence of a direction word at index `i`. -/
def dirWordAt (r : List Char) (i : Nat) (d : Direction) : Bool :=
  wordAt r i (dirString d)

/-- The regexp alternation `(up|down|left|right)` attempted at one
position (at most one of the four can match at a given index, since
their first letters differ). -/
def tryDirAt (r : List Char) (i : Nat) : Option Direction :=
  if dirWordAt r i .up then some .up
  else if dirWordAt r i .down then some .down
  else if dirWordAt r i .left then some .left
  else if dirWordAt r i .right then some .right
  else none

/-- Left-to-right scan of the match positions, mirroring the leftmost
match returned by Go `regexp.FindStringSubmatch`. -/
def scanFromIndex (r : List Char) (i : Nat) : Nat → Option Direction
  | 0 => none
  | fuel + 1 =>
      match tryDirAt r i with
      | some d => some d
      | none => scanFromIndex r (i + 1) fuel

/-- The leftmost standalone direction word of `r`, i.e. the submatch
of the Go regexp `\b(up|down|left|right)\b` on `r`. -/
def firstDirWord (r : List Char) : Option Direction :=
  scanFromIndex r 0 r.length

/-- The two failure messages of Go `ParseDirection`:
`direction '%s' is not valid` and
`could not parse direction from response`. -/
inductive ParseError where
  | directionNotValid
  | couldNotParse
deriving DecidableEq, Repr

/-- Go `ParseDirection`: lower-case and trim the response, accept an
exact match against a valid move, otherwise accept the first
standalone direction word provided it is a valid move, otherwise
fail. -/
def ParseDirection (response : List Char) (validMoves : List Direction) :
    Except ParseError Direction :=
  let r := normalizeResponse response
  match validMoves.find? (fun d => r == dirString d) with
  | some d => .ok d
  | none =>
      match firstDirWord r with
      | some d =>
          if validMoves.contains d then .ok d
          else .error .directionNotValid
      | none => .error .couldNotParse

/-- The safety-tier decision exactly as the specification words it
(its §4.3 step 8 priority chain), defined separately from
`determineSafetyLevel` so that the two can be compared. -/
def safetyTierSpec (immediateMobility territory : Nat) : String :=
  if immediateMobility = 0 then "DEATH TRAP"
  else if 20 ≤ territory ∧ 3 ≤ immediateMobility then "EXCELLENT"
  else if 12 ≤ territory ∧ 2 ≤ immediateMobility then "GOOD"
  else if 2 ≤ immediateMobility ∧ 6 ≤ territory then "MODERATE"
  else if immediateMobility = 1 ∨ territory < 5 then "RISKY"
  else "DANGEROUS"

/-- One step of 4-directional adjacency into a cell that is valid
(in bounds and unvisited) for the state `g`. -/
def adjStep (g : GameState) (p q : Position) : Prop :=
  q ∈ neighborPositions p ∧ IsValidMove g q = true

/-- The connected component reached from `start`: `start` itself plus
every cell reachable from it through valid cells by 4-directional
adjacency.  This is the mathematical description of what the flood
fill of `countReachableTerritory` counts. -/
def ReachSet (g : GameState) (start : Position) : Set Position :=
  {q | Relation.ReflTransGen (adjStep g) start q}

/-- Progress measure for the game loop: free cells still playable plus
active players beyond the survivor.  Every continuing iteration of
`playGameStep` decreases it. -/
def gameMeasure (g : GameState) : Nat :=
  (freeCells g).card + (activeCount g - 1)

/-- An oracle that always picks the first valid move; used to exhibit
concrete runs. -/
def headOracle : Oracle := fun _ _ validMoves => validMoves.head?

/-- An oracle that always fails; used to show that certain steps never
consult the oracle. -/
def noneOracle : Oracle := fun _ _ _ => none

/-- Example state: a 3×3 board where player 0 at (0,0) is walled in by
visited cells, player 1 sits at (2,2), both still active. -/
def gTrap : GameState :=
  { grid := fun _ => Cell.empty
    size := 3
    numPlayers := 2
    playerPos := fun j => if j = 0 then ⟨0, 0⟩ else ⟨2, 2⟩
    active := fun j => j == 0 || j == 1
    moves := []
    visited := {⟨0, 0⟩, ⟨1, 0⟩, ⟨0, 1⟩, ⟨2, 2⟩} }

/-- Loop state at the start of the trapped player's turn. -/
def sTrap : LoopState := ⟨gTrap, 0, 0⟩

/-- Example state: a 2-player game in which only player 1 is still
active. -/
def gLone : GameState :=
  { grid := fun _ => Cell.empty
    size := 3
    numPlayers := 2
    playerPos := fun j => if j = 0 then ⟨0, 0⟩ else ⟨2, 2⟩
    active := fun j => j == 1
    moves := []
    visited := {⟨0, 0⟩, ⟨2, 2⟩} }

/-- Loop state just after the last opponent was eliminated
mid-rotation. -/
def sLone : LoopState := ⟨gLone, 0, 3⟩

/-- Example state: a 1×1 board with both players started on the only
cell; the game can only eliminate and finish. -/
def gTiny : GameState :=
  { grid := fun _ => Cell.empty
    size := 1
    numPlayers := 2
    playerPos := fun _ => ⟨0, 0⟩
    active := fun j => j == 0 || j == 1
    moves := []
    visited := {⟨0, 0⟩} }

/-- Initial loop state on the tiny board. -/
def sTiny : LoopState := ⟨gTiny, 0, 0⟩

/-- Example state for `MakeMove` without validation: moving right from
(0,0) lands on the already-visited (0,1). -/
def gIllegal : GameState :=
  { grid := fun _ => Cell.empty
    size := 3
    numPlayers := 2
    playerPos := fun j => if j = 0 then ⟨0, 0⟩ else ⟨2, 2⟩
    active := fun j => j == 0 || j == 1
    moves := []
    visited := {⟨0, 0⟩, ⟨0, 1⟩, ⟨2, 2⟩} }

/-- Example state for the territory evaluation: only (0,0) visited on
a 3×3 board. -/
def gOpen : GameState :=
  { grid := fun _ => Cell.empty
    size := 3
    numPlayers := 1
    playerPos := fun _ => ⟨0, 0⟩
    active := fun j => j == 0
    moves := []
    visited := {⟨0, 0⟩} }

/-- Example move evaluation used to instantiate the score-monotonicity
statements. -/
def evalEx : MoveEvaluation :=
  { direction := .up
    newPos := ⟨1, 1⟩
    immediateMoves := 2
    reachableTerritory := 8
    avgDepthMobility := 2
    distanceFromCenter := 1
    totalScore := 0
    safetyLevel := "" }

/-! Helper lemmas shared by the claim theorems. -/

theorem mem_boardCells (size : Nat) (q : Position) :
    q ∈ boardCells size ↔ 0 ≤ q.row ∧ q.row < (size : Int) ∧ 0 ≤ q.col ∧ q.col < (size : Int) := by
  simp only [boardCells, Finset.mem_image, Finset.mem_product, Finset.mem_Icc, Prod.exists]
  constructor
  · rintro ⟨a, b, ⟨⟨h1, h2⟩, h3, h4⟩, rfl⟩
    refine ⟨?_, ?_, ?_, ?_⟩ <;> (dsimp only; omega)
  · rintro ⟨h1, h2, h3, h4⟩
    exact ⟨q.row, q.col, ⟨⟨h1, by omega⟩, h3, by omega⟩, rfl⟩

theorem card_boardCells (size : Nat) : (boardCells size).card = size * size := by
  rw [boardCells, Finset.card_image_of_injective _ (fun a b h => ?_), Finset.card_product,
    Int.card_Icc]
  · simp only [sub_zero]
    rw [show ((size : Int) - 1 + 1) = (size : Int) by ring, Int.toNat_natCast]
  · simpa [Prod.ext_iff, Position.mk.injEq] using h

theorem isValid_iff_mem_freeCells (g : GameState) (q : Position) :
    IsValidMove g q = true ↔ q ∈ freeCells g := by
  simp only [IsValidMove, freeCells, Finset.mem_filter, mem_boardCells]
  split
  · rename_i hb
    simp only [Bool.false_eq_true, false_iff]
    intro hc
    rcases hc with ⟨⟨h1, h2, h3, h4⟩, _⟩
    omega
  · rename_i hb
    push_neg at hb
    split
    · rename_i hv
      simp only [Bool.false_eq_true, false_iff]
      intro hc
      exact hc.2 hv
    · rename_i hv
      simp only [true_iff]
      exact ⟨⟨hb.1, hb.2.1, hb.2.2.1, hb.2.2.2⟩, hv⟩

theorem isValid_not_visited (g : GameState) (q : Position)
    (h : IsValidMove g q = true) : q ∉ g.visited :=
  (Finset.mem_filter.mp ((isValid_iff_mem_freeCells g q).mp h)).2

theorem isValid_mem_board (g : GameState) (q : Position)
    (h : IsValidMove g q = true) : q ∈ boardCells g.size :=
  (Finset.mem_filter.mp ((isValid_iff_mem_freeCells g q).mp h)).1

theorem bfsVisitFold_seen_subset (game : GameState) (ns : List Position)
    (seen : Finset Position) (queue : List Position) (count : Nat) :
    seen ⊆ (bfsVisitFold game ns seen queue count).1 := by
  induction ns generalizing seen queue count with
  | nil => simp [bfsVisitFold]
  | cons n rest ih =>
      simp only [bfsVisitFold]
      split
      · exact fun x hx =>
          ih (insert n seen) (queue ++ [n]) (count + 1) (Finset.mem_insert_of_mem hx)
      · exact ih seen queue count

theorem bfsVisitFold_mem_seen (game : GameState) (ns : List Position)
    (seen : Finset Position) (queue : List Position) (count : Nat)
    (x : Position) (hx : x ∈ (bfsVisitFold game ns seen queue count).1) :
    x ∈ seen ∨ (x ∈ ns ∧ IsValidMove game x = true) := by
  induction ns generalizing seen queue count with
  | nil => simp only [bfsVisitFold] at hx; exact Or.inl hx
  | cons n rest ih =>
      simp only [bfsVisitFold] at hx
      split at hx
      · rcases ih _ _ _ hx with h | h
        · rcases Finset.mem_insert.mp h with h | h
          · subst h
            rename_i hcond
            exact Or.inr ⟨List.mem_cons_self _ _, hcond.2⟩
          · exact Or.inl h
        · exact Or.inr ⟨List.mem_cons_of_mem _ h.1, h.2⟩
      · rcases ih _ _ _ hx with h | h
        · exact Or.inl h
        · exact Or.inr ⟨List.mem_cons_of_mem _ h.1, h.2⟩

theorem bfsVisitFold_count (game : GameState) (ns : List Position)
    (seen : Finset Position) (queue : List Position) (count : Nat)
    (h : count = seen.card) :
    (bfsVisitFold game ns seen queue count).2.2 = (bfsVisitFold game ns seen queue count).1.card := by
  induction ns generalizing seen queue count with
  | nil => simpa [bfsVisitFold] using h
  | cons n rest ih =>
      simp only [bfsVisitFold]
      split
      · rename_i hcond
        exact ih (insert n seen) (queue ++ [n]) (count + 1)
          (by rw [Finset.card_insert_of_not_mem hcond.1, h])
      · exact ih seen queue count h

theorem bfsVisitFold_queue_prefix (game : GameState) (ns : List Position)
    (seen : Finset Position) (queue : List Position) (count : Nat) :
    ∃ tail, (bfsVisitFold game ns seen queue count).2.1 = queue ++ tail := by
  induction ns generalizing seen queue count with
  | nil => exact ⟨[], by simp [bfsVisitFold]⟩
  | cons n rest ih =>
      simp only [bfsVisitFold]
      split
      · rcases ih (insert n seen) (queue ++ [n]) (count + 1) with ⟨tail, htail⟩
        exact ⟨[n] ++ tail, by simpa using htail⟩
      · exact ih seen queue count

theorem bfsVisitFold_queue_mem (game : GameState) (ns : List Position)
    (seen : Finset Position) (queue : List Position) (count : Nat)
    (h : ∀ x ∈ queue, x ∈ seen) :
    ∀ x ∈ (bfsVisitFold game ns seen queue count).2.1,
      x ∈ (bfsVisitFold game ns seen queue count).1 := by
  induction ns generalizing seen queue count with
  | nil => simpa [bfsVisitFold] using h
  | cons n rest ih =>
      simp only [bfsVisitFold]
      split
      · refine ih (insert n seen) (queue ++ [n]) (count + 1) ?_
        intro x hx
        rcases List.mem_append.mp hx with hx | hx
        · exact Finset.mem_insert_of_mem (h x hx)
        · simp only [List.mem_singleton] at hx
          subst hx
          exact Finset.mem_insert_self _ _
      · exact ih seen queue count h

theorem bfsVisitFold_new_mem_queue (game : GameState) (ns : List Position)
    (seen : Finset Position) (queue : List Position) (count : Nat) :
    ∀ x ∈ (bfsVisitFold game ns seen queue count).1,
      x ∈ seen ∨ x ∈ (bfsVisitFold game ns seen queue count).2.1 := by
  induction ns generalizing seen queue count with
  | nil => intro x hx; simp only [bfsVisitFold] at hx ⊢; exact Or.inl hx
  | cons n rest ih =>
      simp only [bfsVisitFold]
      split
      · intro x hx
        rcases ih (insert n seen) (queue ++ [n]) (count + 1) x hx with h | h
        · rcases Finset.mem_insert.mp h with h | h
          · subst h
            right
            rcases bfsVisitFold_queue_prefix game rest (insert x seen) (queue ++ [x]) (count + 1)
              with ⟨tail, htail⟩
            rw [htail]
            simp
          · exact Or.inl h
        · exact Or.inr h
      · intro x hx
        rcases ih seen queue count x hx with h | h
        · exact Or.inl h
        · exact Or.inr h

theorem bfsVisitFold_covers (game : GameState) (ns : List Position)
    (seen : Finset Position) (queue : List Position) (count : Nat) :
    ∀ n ∈ ns, IsValidMove game n = true → n ∈ (bfsVisitFold game ns seen queue count).1 := by
  induction ns generalizing seen queue count with
  | nil => intro n hn; cases hn
  | cons m rest ih =>
      simp only [bfsVisitFold]
      split
      · intro n hn hvalid
        rcases List.mem_cons.mp hn with hn | hn
        · subst hn
          exact bfsVisitFold_seen_subset game rest _ _ _ (Finset.mem_insert_self _ _)
        · exact ih _ _ _ n hn hvalid
      · rename_i hcond
        intro n hn hvalid
        rcases List.mem_cons.mp hn with hn | hn
        · subst hn
          have hmem : n ∈ seen := by
            by_contra hn2
            exact hcond ⟨hn2, hvalid⟩
          exact bfsVisitFold_seen_subset game rest _ _ _ hmem
        · exact ih _ _ _ n hn hvalid

theorem bfsVisitFold_measure (game : GameState) (ns : List Position)
    (seen : Finset Position) (queue : List Position) (count : Nat) :
    (freeCells game \ (bfsVisitFold game ns seen queue count).1).card +
        (bfsVisitFold game ns seen queue count).2.1.length ≤
      (freeCells game \ seen).card + queue.length := by
  induction ns generalizing seen queue count with
  | nil => simp [bfsVisitFold]
  | cons n rest ih =>
      simp only [bfsVisitFold]
      split
      · rename_i hcond
        refine le_trans (ih (insert n seen) (queue ++ [n]) (count + 1)) ?_
        have hfree : n ∈ freeCells game := (isValid_iff_mem_freeCells game n).mp hcond.2
        have hdiff : freeCells game \ insert n seen = (freeCells game \ seen).erase n := by
          ext x
          simp only [Finset.mem_sdiff, Finset.mem_insert, Finset.mem_erase]
          tauto
        have hmem : n ∈ freeCells game \ seen := Finset.mem_sdiff.mpr ⟨hfree, hcond.1⟩
        have hcard := Finset.card_erase_of_mem hmem
        have hpos : 0 < (freeCells game \ seen).card := Finset.card_pos.mpr ⟨n, hmem⟩
        rw [hdiff, hcard]
        simp only [List.length_append, List.length_cons, List.length_nil]
        omega
      · exact ih seen queue count

theorem bfsLoop_nil_eq (start : Position) (g : GameState) (seen : Finset Position)
    (count : Nat)
    (hcount : count = seen.card)
    (hreach : ∀ x ∈ seen, Relation.ReflTransGen (adjStep g) start x)
    (hclosed : ∀ x ∈ seen, ∀ y, adjStep g x y → y ∈ seen)
    (hstart : start ∈ seen) :
    bfsLoop g seen [] count = (ReachSet g start).ncard := by
  have hsup : ∀ x, Relation.ReflTransGen (adjStep g) start x → x ∈ seen := by
    intro x hx
    induction hx with
    | refl => exact hstart
    | tail hab hbc ih2 => exact hclosed _ ih2 _ hbc
  have hset : ReachSet g start = ↑seen := by
    ext x
    exact ⟨fun h => hsup x h, fun h => hreach x h⟩
  rw [bfsLoop, hset, Set.ncard_coe_Finset]
  exact hcount

theorem bfsLoop_count (start : Position) (g : GameState) :
    ∀ (n : Nat) (seen : Finset Position) (queue : List Position) (count : Nat),
      (freeCells g \ seen).card + queue.length ≤ n →
      count = seen.card →
      (∀ x ∈ queue, x ∈ seen) →
      (∀ x ∈ seen, Relation.ReflTransGen (adjStep g) start x) →
      (∀ x ∈ seen, x ∉ queue → ∀ y, adjStep g x y → y ∈ seen) →
      start ∈ seen →
      bfsLoop g seen queue count = (ReachSet g start).ncard := by
  intro n
  induction n with
  | zero =>
      intro seen queue count hn hcount hqueue hreach hclosed hstart
      cases queue with
      | nil =>
          exact bfsLoop_nil_eq start g seen count hcount hreach
            (fun x hx => hclosed x hx (List.not_mem_nil _)) hstart
      | cons a l => simp [List.length_cons] at hn
  | succ n ihn =>
      intro seen queue count hn hcount hqueue hreach hclosed hstart
      cases queue with
      | nil =>
          exact bfsLoop_nil_eq start g seen count hcount hreach
            (fun x hx => hclosed x hx (List.not_mem_nil _)) hstart
      | cons current rest =>
          rw [bfsLoop]
          have hrest : ∀ x ∈ rest, x ∈ seen := fun x hx => hqueue x (List.mem_cons_of_mem _ hx)
          have hcur : current ∈ seen := hqueue current (List.mem_cons_self _ _)
          have hmeas := bfsVisitFold_measure g (neighborPositions current) seen rest count
          refine ihn _ _ _ ?_ ?_ ?_ ?_ ?_ ?_
          · simp only [List.length_cons] at hn
            omega
          · exact bfsVisitFold_count g (neighborPositions current) seen rest count hcount
          · exact bfsVisitFold_queue_mem g (neighborPositions current) seen rest count hrest
          · intro x hx
            rcases bfsVisitFold_mem_seen g (neighborPositions current) seen rest count x hx
              with h | h
            · exact hreach x h
            · exact (hreach current hcur).tail ⟨h.1, h.2⟩
          · intro x hx hnx y hy
            rcases bfsVisitFold_new_mem_queue g (neighborPositions current) seen rest count x hx
              with h | h
            · by_cases hxc : x = current
              · subst hxc
                exact bfsVisitFold_covers g (neighborPositions x) seen rest count y hy.1 hy.2
              · have hxrest : x ∉ rest := by
                  intro hxr
                  rcases bfsVisitFold_queue_prefix g (neighborPositions current) seen rest count
                    with ⟨tail, htail⟩
                  exact hnx (htail ▸ List.mem_append.mpr (Or.inl hxr))
                have : y ∈ seen :=
                  hclosed x h (by simp [List.mem_cons, hxc, hxrest]) y hy
                exact bfsVisitFold_seen_subset g (neighborPositions current) seen rest count this
            · exact absurd h hnx
          · exact bfsVisitFold_seen_subset g (neighborPositions current) seen rest count hstart

theorem countReachableTerritory_eq (g : GameState) (start : Position) :
    countReachableTerritory g start = (ReachSet g start).ncard := by
  refine bfsLoop_count start g ((freeCells g \ {start}).card + 1) {start} [start] 1
    (by simp) (by simp) (by simp) ?_ ?_ (by simp)
  · intro x hx
    rw [Finset.mem_singleton] at hx
    subst hx
    exact Relation.ReflTransGen.refl
  · intro x hx hnx
    rw [Finset.mem_singleton] at hx
    subst hx
    exact absurd (List.mem_singleton.mpr rfl) hnx

theorem ReachSet_finite (g : GameState) (start : Position) :
    (ReachSet g start).Finite := by
  refine Set.Finite.subset (Set.Finite.insert start (freeCells g).finite_toSet) ?_
  intro x hx
  induction hx with
  | refl => exact Set.mem_insert _ _
  | tail hab hbc ih =>
      exact Set.mem_insert_of_mem _ ((isValid_iff_mem_freeCells g _).mp hbc.2)

theorem ReachSet_subset_board (g : GameState) (start : Position)
    (hs : start ∈ boardCells g.size) :
    ReachSet g start ⊆ ↑(boardCells g.size) := by
  intro x hx
  induction hx with
  | refl => exact hs
  | tail hab hbc ih => exact isValid_mem_board g _ hbc.2

theorem ReachSet_ncard_le (g : GameState) (start : Position)
    (hs : start ∈ boardCells g.size) :
    (ReachSet g start).ncard ≤ g.size * g.size := by
  calc (ReachSet g start).ncard
      ≤ (↑(boardCells g.size) : Set Position).ncard :=
        Set.ncard_le_ncard (ReachSet_subset_board g start hs) (boardCells g.size).finite_toSet
    _ = (boardCells g.size).card := Set.ncard_coe_Finset _
    _ = g.size * g.size := card_boardCells g.size

theorem neighborPositions_nodup (p : Position) : (neighborPositions p).Nodup := by
  simp [neighborPositions, Position.mk.injEq]
  omega

/-- C3: for every game state and candidate direction, the
`ReachableTerritory` field of the move evaluation equals the size of
the connected component of cells reachable from `newPos` by
4-directional adjacency through not-yet-visited cells, computed over
the simulated visitation set (the real `Visited` set plus `newPos`);
every cell of the component is unvisited in the real state, and the
count never exceeds `size²`. -/
theorem reachable_territory_is_component_size (g : GameState) (pos : Position)
    (dir : Direction) (hv : IsValidMove g (getNewPosition pos dir) = true) :
    (evaluateMove g pos dir).reachableTerritory =
      (ReachSet (simulateMove g (getNewPosition pos dir)) (getNewPosition pos dir)).ncard ∧
    (simulateMove g (getNewPosition pos dir)).visited =
      insert (getNewPosition pos dir) g.visited ∧
    (∀ q ∈ ReachSet (simulateMove g (getNewPosition pos dir)) (getNewPosition pos dir),
      q ∉ g.visited) ∧
    (evaluateMove g pos dir).reachableTerritory ≤ g.size ^ 2 := by
  have h1 : (evaluateMove g pos dir).reachableTerritory =
      countReachableTerritory (simulateMove g (getNewPosition pos dir))
        (getNewPosition pos dir) := rfl
  refine ⟨?_, rfl, ?_, ?_⟩
  · rw [h1, countReachableTerritory_eq]
  · intro q hq
    induction hq with
    | refl => exact isValid_not_visited g _ hv
    | tail hab hbc ih =>
        have hnot := isValid_not_visited (simulateMove g (getNewPosition pos dir)) _ hbc.2
        simp only [simulateMove, Finset.mem_insert, not_or] at hnot
        exact hnot.2
  · rw [h1, countReachableTerritory_eq]
    have hb : getNewPosition pos dir ∈
        boardCells (simulateMove g (getNewPosition pos dir)).size :=
      isValid_mem_board g _ hv
    have hcard := ReachSet_ncard_le (simulateMove g (getNewPosition pos dir))
      (getNewPosition pos dir) hb
    have hsq : g.size ^ 2 = g.size * g.size := by ring
    rw [hsq]
    exact hcard

/-- C3 witness: instantiation at a 3×3 board with only (0,0) visited,
moving right from (0,0). -/
theorem reachable_territory_is_component_size_witness :
    IsValidMove gOpen (getNewPosition ⟨0, 0⟩ .right) = true ∧
    (evaluateMove gOpen ⟨0, 0⟩ .right).reachableTerritory ≤ gOpen.size ^ 2 :=
  ⟨by decide, (reachable_territory_is_component_size gOpen ⟨0, 0⟩ .right (by decide)).2.2.2⟩

/-- C10: the flood-fill territory always counts the landing cell
itself plus every immediately legal neighbour, so
`ReachableTerritory ≥ ImmediateMoves + 1` and the territory field is
never 0. -/
theorem territory_at_least_mobility_plus_one (g : GameState) (pos : Position)
    (dir : Direction) :
    (evaluateMove g pos dir).immediateMoves + 1 ≤
      (evaluateMove g pos dir).reachableTerritory ∧
    0 < (evaluateMove g pos dir).reachableTerritory := by
  have him : (evaluateMove g pos dir).immediateMoves =
      (getAvailablePositions (simulateMove g (getNewPosition pos dir))
        (getNewPosition pos dir)).length := rfl
  have ht : (evaluateMove g pos dir).reachableTerritory =
      (ReachSet (simulateMove g (getNewPosition pos dir)) (getNewPosition pos dir)).ncard := by
    have h1 : (evaluateMove g pos dir).reachableTerritory =
        countReachableTerritory (simulateMove g (getNewPosition pos dir))
          (getNewPosition pos dir) := rfl
    rw [h1, countReachableTerritory_eq]
  have hnodup : (getAvailablePositions (simulateMove g (getNewPosition pos dir))
      (getNewPosition pos dir)).Nodup :=
    (neighborPositions_nodup _).filter _
  have hA : (getAvailablePositions (simulateMove g (getNewPosition pos dir))
      (getNewPosition pos dir)).toFinset.card =
      (getAvailablePositions (simulateMove g (getNewPosition pos dir))
        (getNewPosition pos dir)).length :=
    List.toFinset_card_of_nodup hnodup
  have hnp : getNewPosition pos dir ∉
      (getAvailablePositions (simulateMove g (getNewPosition pos dir))
        (getNewPosition pos dir)).toFinset := by
    intro hmem
    rw [List.mem_toFinset] at hmem
    have hvalid := (List.mem_filter.mp hmem).2
    have := isValid_not_visited (simulateMove g (getNewPosition pos dir)) _ hvalid
    exact this (by simp [simulateMove])
  have hsub : ↑(insert (getNewPosition pos dir)
      (getAvailablePositions (simulateMove g (getNewPosition pos dir))
        (getNewPosition pos dir)).toFinset) ⊆
      ReachSet (simulateMove g (getNewPosition pos dir)) (getNewPosition pos dir) := by
    intro x hx
    simp only [Finset.coe_insert, Set.mem_insert_iff, Finset.mem_coe,
      List.mem_toFinset] at hx
    rcases hx with hx | hx
    · subst hx
      exact Relation.ReflTransGen.refl
    · have h2 := List.mem_filter.mp hx
      exact Relation.ReflTransGen.single ⟨h2.1, h2.2⟩
  have hins : (insert (getNewPosition pos dir)
      (getAvailablePositions (simulateMove g (getNewPosition pos dir))
        (getNewPosition pos dir)).toFinset).card =
      (getAvailablePositions (simulateMove g (getNewPosition pos dir))
        (getNewPosition pos dir)).toFinset.card + 1 :=
    Finset.card_insert_of_not_mem hnp
  have hle : (insert (getNewPosition pos dir)
      (getAvailablePositions (simulateMove g (getNewPosition pos dir))
        (getNewPosition pos dir)).toFinset).card ≤
      (ReachSet (simulateMove g (getNewPosition pos dir)) (getNewPosition pos dir)).ncard := by
    rw [← Set.ncard_coe_Finset]
    exact Set.ncard_le_ncard hsub (ReachSet_finite _ _)
  constructor
  · rw [him, ht, ← hA]
    omega
  · rw [ht]
    omega

/-- C4: the safety tier of every move evaluation is decided exactly by
the specification's priority chain over the just-computed fields:
`immediateMobility = 0` gives "DEATH TRAP" regardless of everything
else, then territory ≥ 20 ∧ mobility ≥ 3 gives "EXCELLENT", then
territory ≥ 12 ∧ mobility ≥ 2 gives "GOOD", then mobility ≥ 2 ∧
territory ≥ 6 gives "MODERATE", then mobility = 1 ∨ territory < 5
gives "RISKY", else "DANGEROUS"; and the `SafetyLevel` field filled in
by `evaluateMove` obeys the same chain. -/
theorem safety_tier_follows_spec_priority :
    (∀ e : MoveEvaluation,
      determineSafetyLevel e = safetyTierSpec e.immediateMoves e.reachableTerritory) ∧
    (∀ (g : GameState) (pos : Position) (dir : Direction),
      (evaluateMove g pos dir).safetyLevel =
        safetyTierSpec (evaluateMove g pos dir).immediateMoves
          (evaluateMove g pos dir).reachableTerritory) :=
  ⟨fun _ => rfl, fun _ _ _ => rfl⟩

/-- C5: the total score is the weighted sum
`2·territory + 3·avgDepthMobility + 5·immediateMobility +
1·normalizedCenterProximity` with
`normalizedCenterProximity = (maxDist − centerDistance) / maxDist`,
`maxDist = size·size`, and `centerDistance` the squared Euclidean
distance from `newPos` to the board's centre `(size/2, size/2)`;
consequently the score is monotone (never decreasing) in territory, in
average depth mobility and in immediate mobility separately. -/
theorem total_score_formula_and_monotone :
    (∀ (e : MoveEvaluation) (boardSize : Nat),
      calculateMoveScore e boardSize =
        2 * (e.reachableTerritory : Rat) + 3 * e.avgDepthMobility +
          5 * (e.immediateMoves : Rat) +
          1 * (((boardSize : Rat) * (boardSize : Rat) - e.distanceFromCenter) /
            ((boardSize : Rat) * (boardSize : Rat)))) ∧
    (∀ (g : GameState) (pos : Position) (dir : Direction),
      (evaluateMove g pos dir).distanceFromCenter =
        (((getNewPosition pos dir).row : Rat) - (g.size : Rat) / 2) ^ 2 +
          (((getNewPosition pos dir).col : Rat) - (g.size : Rat) / 2) ^ 2) ∧
    (∀ (e : MoveEvaluation) (boardSize : Nat) (t1 t2 : Nat), t1 ≤ t2 →
      calculateMoveScore { e with reachableTerritory := t1 } boardSize ≤
        calculateMoveScore { e with reachableTerritory := t2 } boardSize) ∧
    (∀ (e : MoveEvaluation) (boardSize : Nat) (a1 a2 : Rat), a1 ≤ a2 →
      calculateMoveScore { e with avgDepthMobility := a1 } boardSize ≤
        calculateMoveScore { e with avgDepthMobility := a2 } boardSize) ∧
    (∀ (e : MoveEvaluation) (boardSize : Nat) (m1 m2 : Nat), m1 ≤ m2 →
      calculateMoveScore { e with immediateMoves := m1 } boardSize ≤
        calculateMoveScore { e with immediateMoves := m2 } boardSize) := by
  refine ⟨?_, ?_, ?_, ?_, ?_⟩
  · intro e boardSize
    simp only [calculateMoveScore]
    push_cast
    ring
  · intro g pos dir
    simp only [evaluateMove, calculateDistance]
    ring
  · intro e boardSize t1 t2 h
    have h2 : (t1 : Rat) ≤ (t2 : Rat) := by exact_mod_cast h
    simp only [calculateMoveScore]
    linarith
  · intro e boardSize a1 a2 h
    simp only [calculateMoveScore]
    linarith
  · intro e boardSize m1 m2 h
    have h2 : (m1 : Rat) ≤ (m2 : Rat) := by exact_mod_cast h
    simp only [calculateMoveScore]
    linarith

/-- C5 witness: the monotonicity statements instantiated at a concrete
evaluation on a 4×4 board. -/
theorem total_score_monotone_witness :
    ((1 : Nat) ≤ 2 ∧ ((0 : Rat) ≤ 1)) ∧
    calculateMoveScore { evalEx with reachableTerritory := 1 } 4 ≤
      calculateMoveScore { evalEx with reachableTerritory := 2 } 4 ∧
    calculateMoveScore { evalEx with avgDepthMobility := 0 } 4 ≤
      calculateMoveScore { evalEx with avgDepthMobility := 1 } 4 ∧
    calculateMoveScore { evalEx with immediateMoves := 1 } 4 ≤
      calculateMoveScore { evalEx with immediateMoves := 2 } 4 :=
  ⟨⟨by decide, by decide⟩,
   total_score_formula_and_monotone.2.2.1 evalEx 4 1 2 (by decide),
   total_score_formula_and_monotone.2.2.2.1 evalEx 4 0 1 (by decide),
   total_score_formula_and_monotone.2.2.2.2 evalEx 4 1 2 (by decide)⟩

/-- C9 counterexample: `MakeMove` called with a direction whose
destination is already visited (player 0 moving right from (0,0) onto
the visited (0,1)) still changes the move log and the player position,
so the claimed no-effect / fail-fast behaviour does not hold. -/
theorem makeMove_illegal_destination_mutates_state :
    IsValidMove gIllegal (getNewPosition (gIllegal.playerPos 0) .right) = false ∧
    ¬((MakeMove gIllegal 0 .right).moves = gIllegal.moves ∧
      (MakeMove gIllegal 0 .right).playerPos 0 = gIllegal.playerPos 0) := by
  refine ⟨by decide, ?_⟩
  intro h
  have := h.1
  simp [MakeMove, gIllegal] at this

/-- C9 amended: `MakeMove` performs no legality re-check; called with
a direction whose destination is in bounds but already visited — an
illegal destination — it still marks the board, moves the player and
appends the move record, while the Visited set is unchanged as a set
(the insert of an already-present cell is a no-op): the state is
silently corrupted instead of the operation failing fast.  (An
out-of-bounds destination makes the Go grid write panic part-way
through the update and is outside this statement.) -/
theorem makeMove_no_check_on_visited_destination (g : GameState) (player : Nat)
    (direction : Direction)
    (_hin : getNewPosition (g.playerPos player) direction ∈ boardCells g.size)
    (hvis : getNewPosition (g.playerPos player) direction ∈ g.visited) :
    IsValidMove g (getNewPosition (g.playerPos player) direction) = false ∧
    (MakeMove g player direction).moves =
      g.moves ++ [{ player := player, direction := direction,
                    fromPos := g.playerPos player,
                    toPos := getNewPosition (g.playerPos player) direction }] ∧
    (MakeMove g player direction).playerPos player =
      getNewPosition (g.playerPos player) direction ∧
    (MakeMove g player direction).visited = g.visited ∧
    (MakeMove g player direction).grid
      (getNewPosition (g.playerPos player) direction) = Cell.head player := by
  refine ⟨?_, rfl, by simp [MakeMove], ?_, by simp [MakeMove]⟩
  · have hfree : getNewPosition (g.playerPos player) direction ∉ freeCells g := by
      intro hf
      exact (Finset.mem_filter.mp hf).2 hvis
    cases hval : IsValidMove g (getNewPosition (g.playerPos player) direction) with
    | false => rfl
    | true => exact absurd ((isValid_iff_mem_freeCells g _).mp hval) hfree
  · show insert (getNewPosition (g.playerPos player) direction) g.visited = g.visited
    exact Finset.insert_eq_self.mpr hvis

/-- C9 witness: the amended statement instantiated at the concrete
in-bounds already-visited destination (0,1). -/
theorem makeMove_no_check_on_visited_destination_witness :
    getNewPosition (gIllegal.playerPos 0) .right ∈ boardCells gIllegal.size ∧
    getNewPosition (gIllegal.playerPos 0) .right ∈ gIllegal.visited ∧
    (MakeMove gIllegal 0 .right).playerPos 0 =
      getNewPosition (gIllegal.playerPos 0) .right :=
  ⟨by decide, by decide,
    (makeMove_no_check_on_visited_destination gIllegal 0 .right
      (by decide) (by decide)).2.2.1⟩

/-- C8 counterexample: the response "up-left" with legal set
{up, left} does parse — the hyphen is not a word character, so "up"
occurs at a word boundary — contradicting the claim that parsing
fails with a parse error. -/
theorem upLeft_response_parses_successfully :
    ParseDirection "up-left".toList [Direction.up, Direction.left] = .ok Direction.up ∧
    ∀ e : ParseError,
      ParseDirection "up-left".toList [Direction.up, Direction.left] ≠ .error e := by
  have hok : ParseDirection "up-left".toList [Direction.up, Direction.left] =
      .ok Direction.up := rfl
  refine ⟨hok, ?_⟩
  intro e h
  rw [hok] at h
  exact Except.noConfusion h

/-- C8 amended: for the response "up-left" (up and left both legal)
the parser succeeds and returns up, because '-' is a non-word
character and therefore `\bup\b` matches at position 0; no parse
error occurs, so no retry is triggered. -/
theorem scanActive_lt (a : Nat → Bool) (p : Nat) (fuel : Nat) (idx : Nat)
    (hp : 0 < p) (hidx : idx < p) : scanActive a p idx fuel < p := by
  induction fuel generalizing idx with
  | zero => exact hidx
  | succ f ih =>
      simp only [scanActive]
      split
      · exact hidx
      · exact ih _ (Nat.mod_lt _ hp)

theorem scanActive_finds (a : Nat → Bool) (p : Nat) :
    ∀ (fuel idx : Nat), idx < p →
      (∃ k, k < fuel ∧ a ((idx + k) % p) = true) →
      a (scanActive a p idx fuel) = true := by
  intro fuel
  induction fuel with
  | zero =>
      intro idx _ hex
      obtain ⟨k, hk, _⟩ := hex
      omega
  | succ f ih =>
      intro idx hidx hex
      obtain ⟨k, hk, hak⟩ := hex
      simp only [scanActive]
      split
      · rename_i h
        exact h
      · rename_i h
        apply ih ((idx + 1) % p) (Nat.mod_lt _ (by omega))
        cases k with
        | zero =>
            rw [Nat.add_zero, Nat.mod_eq_of_lt hidx] at hak
            exact absurd hak h
        | succ k2 =>
            refine ⟨k2, by omega, ?_⟩
            rw [Nat.mod_add_mod, show idx + 1 + k2 = idx + (k2 + 1) by omega]
            exact hak

theorem exists_active_offset (a : Nat → Bool) (p idx j : Nat) (hidx : idx < p)
    (hj : j < p) (haj : a j = true) :
    ∃ k, k < p ∧ a ((idx + k) % p) = true := by
  by_cases h : idx ≤ j
  · refine ⟨j - idx, by omega, ?_⟩
    rw [show idx + (j - idx) = j by omega, Nat.mod_eq_of_lt hj]
    exact haj
  · refine ⟨j + p - idx, by omega, ?_⟩
    rw [show idx + (j + p - idx) = j + p by omega, Nat.add_mod_right, Nat.mod_eq_of_lt hj]
    exact haj

theorem activeCount_exists (g : GameState) (h : 1 ≤ activeCount g) :
    ∃ j, j < g.numPlayers ∧ g.active j = true := by
  unfold activeCount at h
  have hne : (List.range g.numPlayers).filter (fun i => g.active i) ≠ [] := by
    intro he
    rw [he] at h
    simp at h
  obtain ⟨x, hx⟩ := List.exists_mem_of_ne_nil _ hne
  have hx2 := List.mem_filter.mp hx
  exact ⟨x, List.mem_range.mp hx2.1, hx2.2⟩

theorem activeCount_le (g : GameState) : activeCount g ≤ g.numPlayers := by
  unfold activeCount
  calc ((List.range g.numPlayers).filter (fun i => g.active i)).length
      ≤ (List.range g.numPlayers).length := List.length_filter_le _ _
    _ = g.numPlayers := List.length_range _

theorem activeCount_unique (g : GameState) (j : Nat) (hj : j < g.numPlayers)
    (haj : g.active j = true)
    (hu : ∀ k, k < g.numPlayers → g.active k = true → k = j) :
    activeCount g = 1 := by
  unfold activeCount
  have hjmem : j ∈ (List.range g.numPlayers).filter (fun i => g.active i) :=
    List.mem_filter.mpr ⟨List.mem_range.mpr hj, haj⟩
  have hall : ∀ x ∈ (List.range g.numPlayers).filter (fun i => g.active i), x = j := by
    intro x hx
    have hx2 := List.mem_filter.mp hx
    exact hu x (List.mem_range.mp hx2.1) hx2.2
  have hnd : ((List.range g.numPlayers).filter (fun i => g.active i)).Nodup :=
    (List.nodup_range _).filter _
  cases hlist : (List.range g.numPlayers).filter (fun i => g.active i) with
  | nil => rw [hlist] at hjmem; cases hjmem
  | cons x l =>
      rw [hlist] at hall hnd
      cases l with
      | nil => rfl
      | cons y l2 =>
          exfalso
          have hx := hall x (List.mem_cons_self _ _)
          have hy := hall y (List.mem_cons_of_mem _ (List.mem_cons_self _ _))
          rw [List.nodup_cons] at hnd
          exact hnd.1 (by rw [hx, hy]; exact List.mem_cons_self _ _)

theorem lastActive_foldl (a : Nat → Bool) (j : Nat) :
    ∀ (l : List Nat) (acc : Option Nat),
      (∀ i ∈ l, a i = true → i = j) →
      ((j ∈ l ∧ a j = true) ∨ acc = some j) →
      l.foldl (fun acc2 i => if a i then some i else acc2) acc = some j := by
  intro l
  induction l with
  | nil =>
      intro acc hu hor
      rcases hor with ⟨hj, _⟩ | h
      · cases hj
      · simpa using h
  | cons x xs ih =>
      intro acc hu hor
      simp only [List.foldl_cons]
      rcases hor with ⟨hj, haj⟩ | hacc
      · rcases List.mem_cons.mp hj with hj | hj
        · rw [← hj, if_pos haj]
          exact ih _ (fun i hi hai => hu i (List.mem_cons_of_mem _ hi) hai)
            (Or.inr (by rw [hj]))
        · exact ih _ (fun i hi hai => hu i (List.mem_cons_of_mem _ hi) hai)
            (Or.inl ⟨hj, haj⟩)
      · by_cases hax : a x = true
        · have hxj : x = j := hu x (List.mem_cons_self _ _) hax
          rw [if_pos hax]
          exact ih _ (fun i hi hai => hu i (List.mem_cons_of_mem _ hi) hai)
            (Or.inr (by rw [hxj]))
        · rw [if_neg hax]
          exact ih _ (fun i hi hai => hu i (List.mem_cons_of_mem _ hi) hai) (Or.inr hacc)

theorem lastActive_unique (g : GameState) (j : Nat) (hj : j < g.numPlayers)
    (haj : g.active j = true)
    (hu : ∀ k, k < g.numPlayers → g.active k = true → k = j) :
    lastActivePlayer g = some j := by
  unfold lastActivePlayer
  exact lastActive_foldl g.active j (List.range g.numPlayers) none
    (fun i hi hai => hu i (List.mem_range.mp hi) hai)
    (Or.inl ⟨List.mem_range.mpr hj, haj⟩)

theorem filter_length_update_false (a : Nat → Bool) (i : Nat) :
    ∀ l : List Nat, l.Nodup → i ∈ l → a i = true →
      (l.filter (fun k => if k = i then false else a k)).length =
        (l.filter (fun k => a k)).length - 1 := by
  intro l
  induction l with
  | nil => intro _ hi; cases hi
  | cons x xs ih =>
      intro hnd hi hai
      rw [List.nodup_cons] at hnd
      rcases List.mem_cons.mp hi with hx | hx
      · rw [← hx] at hnd ⊢
        rw [List.filter_cons, List.filter_cons]
        have hagree : xs.filter (fun k => if k = i then false else a k) =
            xs.filter (fun k => a k) := by
          apply List.filter_congr
          intro k hk
          have hki : k ≠ i := by
            intro he
            exact hnd.1 (he ▸ hk)
          simp [hki]
        have hcondF : (if i = i then false else a i) = false := by simp
        have hcondT : a i = true := hai
        rw [hcondF, hcondT]
        simp only [Bool.false_eq_true, if_false, if_true, List.length_cons]
        rw [hagree]
        omega
      · have hxi : x ≠ i := by
          intro he
          exact hnd.1 (he ▸ hx)
        rw [List.filter_cons, List.filter_cons]
        have hsame : (if x = i then false else a x) = a x := by simp [hxi]
        rw [hsame]
        by_cases hax : a x = true
        · rw [hax]
          simp only [if_true, List.length_cons]
          have hpos : 0 < (xs.filter (fun k => a k)).length := by
            have : i ∈ xs.filter (fun k => a k) := List.mem_filter.mpr ⟨hx, hai⟩
            exact List.length_pos_of_mem this
          have hrec := ih hnd.2 hx hai
          omega
        · rw [Bool.not_eq_true] at hax
          rw [hax]
          simp only [Bool.false_eq_true, if_false]
          exact ih hnd.2 hx hai

theorem eliminate_activeCount (g : GameState) (i : Nat) (hi : i < g.numPlayers)
    (hai : g.active i = true) :
    activeCount (eliminatePlayer g i) = activeCount g - 1 := by
  unfold activeCount eliminatePlayer
  exact filter_length_update_false g.active i (List.range g.numPlayers)
    (List.nodup_range _) (List.mem_range.mpr hi) hai

theorem mem_GetValidMoves (g : GameState) (i : Nat) (d : Direction) :
    d ∈ GetValidMoves g i ↔
      IsValidMove g (getNewPosition (g.playerPos i) d) = true := by
  cases d <;> simp [GetValidMoves, getNewPosition]

theorem makeMove_freeCells (g : GameState) (i : Nat) (d : Direction)
    (hv : IsValidMove g (getNewPosition (g.playerPos i) d) = true) :
    (freeCells (MakeMove g i d)).card + 1 = (freeCells g).card := by
  have heq : freeCells (MakeMove g i d) =
      (freeCells g).erase (getNewPosition (g.playerPos i) d) := by
    ext x
    simp only [freeCells, MakeMove, Finset.mem_filter, Finset.mem_erase,
      Finset.mem_insert, not_or]
    tauto
  have hmem := (isValid_iff_mem_freeCells g _).mp hv
  rw [heq, Finset.card_erase_of_mem hmem]
  have hpos : 0 < (freeCells g).card := Finset.card_pos.mpr ⟨_, hmem⟩
  omega

/-- C2: in a reachable state in which exactly one player is still
active, the very next loop iteration finishes the game with that
player as winner; no oracle is consulted (the outcome is the same for
every oracle) and no further move happens. -/
theorem single_survivor_finishes_immediately (o1 o2 : Oracle) (s : LoopState) (j : Nat)
    (hj : j < s.game.numPlayers) (haj : s.game.active j = true)
    (hu : ∀ k, k < s.game.numPlayers → s.game.active k = true → k = j) :
    playGameStep o1 s = .finished (some j) ∧
    playGameStep o1 s = playGameStep o2 s ∧
    ∀ s', playGameStep o1 s ≠ .next s' := by
  have hac : activeCount s.game = 1 := activeCount_unique s.game j hj haj hu
  have hlast : lastActivePlayer s.game = some j := lastActive_unique s.game j hj haj hu
  have h1 : playGameStep o1 s = .finished (some j) := by
    simp [playGameStep, hac, hlast]
  have h2 : playGameStep o2 s = .finished (some j) := by
    simp [playGameStep, hac, hlast]
  refine ⟨h1, by rw [h1, h2], ?_⟩
  intro s' h
  rw [h1] at h
  exact StepOutcome.noConfusion h

/-- C2 witness: with only player 1 still active in a 2-player game,
the next step declares player 1 the winner, for both a working and a
failing oracle. -/
theorem single_survivor_witness :
    (1 : Nat) < sLone.game.numPlayers ∧ sLone.game.active 1 = true ∧
    playGameStep headOracle sLone = .finished (some 1) ∧
    playGameStep headOracle sLone = playGameStep noneOracle sLone := by
  have h := single_survivor_finishes_immediately headOracle noneOracle sLone 1
    (by decide) (by decide) (by decide)
  exact ⟨by decide, by decide, h.1, h.2.1⟩

/-- C1: at the start of a turn (with at least two players active, so a
turn actually happens), the player the rotation lands on is Active;
if their valid-move set is empty the step eliminates exactly that
player, records no move, and never consults the oracle (the step is
identical for every oracle); and in any continuing step the player is
eliminated if and only if their valid-move set was empty. -/
theorem elimination_iff_no_valid_moves (o1 o2 : Oracle) (s : LoopState)
    (hidx : s.currentPlayerIndex < s.game.numPlayers)
    (h2 : 2 ≤ activeCount s.game) :
    s.game.active (currentTurnPlayer s) = true ∧
    (GetValidMoves s.game (currentTurnPlayer s) = [] →
      playGameStep o1 s =
        .next ⟨eliminatePlayer s.game (currentTurnPlayer s),
               (currentTurnPlayer s + 1) % s.game.numPlayers, s.moveCount + 1⟩ ∧
      (eliminatePlayer s.game (currentTurnPlayer s)).active (currentTurnPlayer s) = false ∧
      (eliminatePlayer s.game (currentTurnPlayer s)).moves = s.game.moves ∧
      playGameStep o1 s = playGameStep o2 s) ∧
    (∀ s', playGameStep o1 s = .next s' →
      (s'.game.active (currentTurnPlayer s) = false ↔
        GetValidMoves s.game (currentTurnPlayer s) = [])) := by
  obtain ⟨j, hjp, haj⟩ := activeCount_exists s.game (by omega)
  have hactive : s.game.active (currentTurnPlayer s) = true :=
    scanActive_finds s.game.active s.game.numPlayers s.game.numPlayers
      s.currentPlayerIndex hidx
      (exists_active_offset s.game.active s.game.numPlayers s.currentPlayerIndex j
        hidx hjp haj)
  have hnle : ¬ activeCount s.game ≤ 1 := by omega
  refine ⟨hactive, ?_, ?_⟩
  · intro hvm
    have hstep1 : playGameStep o1 s =
        .next ⟨eliminatePlayer s.game (currentTurnPlayer s),
               (currentTurnPlayer s + 1) % s.game.numPlayers, s.moveCount + 1⟩ := by
      simp [playGameStep, hnle, hvm]
    have hstep2 : playGameStep o2 s =
        .next ⟨eliminatePlayer s.game (currentTurnPlayer s),
               (currentTurnPlayer s + 1) % s.game.numPlayers, s.moveCount + 1⟩ := by
      simp [playGameStep, hnle, hvm]
    exact ⟨hstep1, by simp [eliminatePlayer], rfl, by rw [hstep1, hstep2]⟩
  · intro s' hs'
    by_cases hvm : GetValidMoves s.game (currentTurnPlayer s) = []
    · have hstep1 : playGameStep o1 s =
          .next ⟨eliminatePlayer s.game (currentTurnPlayer s),
                 (currentTurnPlayer s + 1) % s.game.numPlayers, s.moveCount + 1⟩ := by
        simp [playGameStep, hnle, hvm]
      rw [hstep1] at hs'
      have hsg : s' = ⟨eliminatePlayer s.game (currentTurnPlayer s),
          (currentTurnPlayer s + 1) % s.game.numPlayers, s.moveCount + 1⟩ :=
        (StepOutcome.next.injEq _ _).mp hs'.symm
      subst hsg
      simp [eliminatePlayer, hvm]
    · rcases ho : o1 s.game (currentTurnPlayer s)
          (GetValidMoves s.game (currentTurnPlayer s)) with _ | d
      · have hfail : playGameStep o1 s = .fail := by
          simp [playGameStep, hnle, hvm, ho]
        rw [hfail] at hs'
        exact StepOutcome.noConfusion hs'
      · have hstep : playGameStep o1 s =
            .next ⟨MakeMove s.game (currentTurnPlayer s) d,
                   (currentTurnPlayer s + 1) % s.game.numPlayers, s.moveCount + 1⟩ := by
          simp [playGameStep, hnle, hvm, ho]
        rw [hstep] at hs'
        have hsg : s' = ⟨MakeMove s.game (currentTurnPlayer s) d,
            (currentTurnPlayer s + 1) % s.game.numPlayers, s.moveCount + 1⟩ :=
          (StepOutcome.next.injEq _ _).mp hs'.symm
        subst hsg
        simp [MakeMove, hactive, hvm]

/-- C1 witness: a 3×3 state where player 0 is fully walled in —
validMoves is empty, the step eliminates player 0, keeps the move log,
and is the same for a working and a failing oracle. -/
theorem elimination_iff_no_valid_moves_witness :
    sTrap.currentPlayerIndex < sTrap.game.numPlayers ∧
    2 ≤ activeCount sTrap.game ∧
    GetValidMoves sTrap.game (currentTurnPlayer sTrap) = [] ∧
    (eliminatePlayer sTrap.game (currentTurnPlayer sTrap)).moves = sTrap.game.moves ∧
    playGameStep headOracle sTrap = playGameStep noneOracle sTrap := by
  have h := (elimination_iff_no_valid_moves headOracle noneOracle sTrap
    (by decide) (by decide)).2.1 (by decide)
  exact ⟨by decide, by decide, by decide, h.2.2.1, h.2.2.2⟩

theorem playGameStep_progress (o : Oracle)
    (ho : ∀ g i vm, vm ≠ [] → ∃ d, d ∈ vm ∧ o g i vm = some d)
    (s : LoopState) (hidx : s.currentPlayerIndex < s.game.numPlayers) :
    (∃ w, playGameStep o s = .finished w) ∨
    (∃ s', playGameStep o s = .next s' ∧
      s'.game.numPlayers = s.game.numPlayers ∧
      s'.currentPlayerIndex < s'.game.numPlayers ∧
      gameMeasure s'.game < gameMeasure s.game) := by
  by_cases hac : activeCount s.game ≤ 1
  · left
    by_cases h1 : activeCount s.game = 1
    · exact ⟨lastActivePlayer s.game, by simp [playGameStep, hac, h1]⟩
    · exact ⟨none, by simp [playGameStep, hac, h1]⟩
  · right
    have hac2 : 2 ≤ activeCount s.game := by omega
    obtain ⟨j, hjp, haj⟩ := activeCount_exists s.game (by omega)
    have hp : 0 < s.game.numPlayers := by omega
    have hcur_lt : currentTurnPlayer s < s.game.numPlayers :=
      scanActive_lt s.game.active s.game.numPlayers s.game.numPlayers
        s.currentPlayerIndex hp hidx
    have hcur_act : s.game.active (currentTurnPlayer s) = true :=
      scanActive_finds s.game.active s.game.numPlayers s.game.numPlayers
        s.currentPlayerIndex hidx
        (exists_active_offset s.game.active s.game.numPlayers s.currentPlayerIndex j
          hidx hjp haj)
    by_cases hvm : GetValidMoves s.game (currentTurnPlayer s) = []
    · refine ⟨⟨eliminatePlayer s.game (currentTurnPlayer s),
          (currentTurnPlayer s + 1) % s.game.numPlayers, s.moveCount + 1⟩,
        by simp [playGameStep, hac, hvm], rfl, Nat.mod_lt _ hp, ?_⟩
      have hfree : freeCells (eliminatePlayer s.game (currentTurnPlayer s)) =
          freeCells s.game := rfl
      have hacount := eliminate_activeCount s.game (currentTurnPlayer s) hcur_lt hcur_act
      unfold gameMeasure
      rw [hfree, hacount]
      omega
    · obtain ⟨d, hd, hod⟩ := ho s.game (currentTurnPlayer s) _ hvm
      refine ⟨⟨MakeMove s.game (currentTurnPlayer s) d,
          (currentTurnPlayer s + 1) % s.game.numPlayers, s.moveCount + 1⟩,
        by simp [playGameStep, hac, hvm, hod], rfl, Nat.mod_lt _ hp, ?_⟩
      have hacount : activeCount (MakeMove s.game (currentTurnPlayer s) d) =
          activeCount s.game := rfl
      have hfree := makeMove_freeCells s.game (currentTurnPlayer s) d
        ((mem_GetValidMoves s.game (currentTurnPlayer s) d).mp hd)
      unfold gameMeasure
      dsimp only
      rw [hacount]
      omega

theorem runGame_reaches_finished (o : Oracle)
    (ho : ∀ g i vm, vm ≠ [] → ∃ d, d ∈ vm ∧ o g i vm = some d) :
    ∀ (m : Nat) (s : LoopState), s.currentPlayerIndex < s.game.numPlayers →
      gameMeasure s.game ≤ m →
      ∃ n, n ≤ m + 1 ∧ ∃ w, runGame o n s = .finished w := by
  intro m
  induction m with
  | zero =>
      intro s hidx hm
      have hac : activeCount s.game ≤ 1 := by
        unfold gameMeasure at hm
        omega
      refine ⟨1, le_refl _, ?_⟩
      by_cases h1 : activeCount s.game = 1
      · exact ⟨lastActivePlayer s.game, by simp [runGame, playGameStep, hac, h1]⟩
      · exact ⟨none, by simp [runGame, playGameStep, hac, h1]⟩
  | succ m ih =>
      intro s hidx hm
      rcases playGameStep_progress o ho s hidx with ⟨w, hw⟩ | ⟨s', hs', _, hidx', hmeas⟩
      · exact ⟨1, by omega, w, by simp [runGame, hw]⟩
      · obtain ⟨n, hn, w, hw⟩ := ih s' hidx' (by omega)
        exact ⟨n + 1, by omega, w, by simp [runGame, hs', hw]⟩

/-- C6: with an oracle that always returns a direction from the valid
set, any game state whose board already has a visited in-bounds cell
(as every state after `InitGame` does) reaches the Finished outcome
within `size² × playerCount` loop iterations: each iteration either
finishes, eliminates a player, or marks a previously unvisited cell. -/
theorem game_terminates_within_bound (o : Oracle) (s : LoopState)
    (ho : ∀ g i vm, vm ≠ [] → ∃ d, d ∈ vm ∧ o g i vm = some d)
    (hp : 2 ≤ s.game.numPlayers)
    (hidx : s.currentPlayerIndex < s.game.numPlayers)
    (hvis : ∃ q, q ∈ boardCells s.game.size ∧ q ∈ s.game.visited) :
    ∃ n, n ≤ s.game.size ^ 2 * s.game.numPlayers ∧
      ∃ w, runGame o n s = .finished w := by
  obtain ⟨q, hqb, hqv⟩ := hvis
  have hs1 : 1 ≤ s.game.size := by
    have hb := (mem_boardCells s.game.size q).mp hqb
    omega
  have hfree : (freeCells s.game).card ≤ s.game.size * s.game.size - 1 := by
    have hsub : freeCells s.game ⊆ (boardCells s.game.size).erase q := by
      intro x hx
      have hx2 := Finset.mem_filter.mp hx
      refine Finset.mem_erase.mpr ⟨?_, hx2.1⟩
      intro he
      exact hx2.2 (he ▸ hqv)
    calc (freeCells s.game).card
        ≤ ((boardCells s.game.size).erase q).card := Finset.card_le_card hsub
      _ = (boardCells s.game.size).card - 1 := Finset.card_erase_of_mem hqb
      _ = s.game.size * s.game.size - 1 := by rw [card_boardCells]
  have hac : activeCount s.game ≤ s.game.numPlayers := activeCount_le s.game
  obtain ⟨n, hn, w, hw⟩ := runGame_reaches_finished o ho (gameMeasure s.game) s hidx
    (le_refl _)
  refine ⟨n, ?_, w, hw⟩
  unfold gameMeasure at hn
  have h11 : 1 ≤ s.game.size * s.game.size := by
    simpa using Nat.mul_le_mul hs1 hs1
  obtain ⟨a, ha⟩ := Nat.exists_eq_add_of_le h11
  rw [Nat.add_comm] at ha
  obtain ⟨b, hb⟩ : ∃ b, s.game.numPlayers = b + 1 := ⟨s.game.numPlayers - 1, by omega⟩
  have hb1 : 1 ≤ b := by omega
  have hpow : s.game.size ^ 2 = s.game.size * s.game.size := by ring
  rw [hpow, ha, hb]
  rw [ha] at hfree
  rw [hb] at hac
  have h2 : n ≤ a + b + 1 := by omega
  have hexp : (a + 1) * (b + 1) = a * b + (a + b + 1) := by ring
  rw [hexp]
  exact le_trans h2 (Nat.le_add_left _ _)

/-- C6 witness: on the 1×1 two-player board, the game finishes within
`1² × 2 = 2` iterations for the first-valid-move oracle. -/
theorem game_terminates_within_bound_witness :
    2 ≤ sTiny.game.numPlayers ∧
    sTiny.currentPlayerIndex < sTiny.game.numPlayers ∧
    ∃ n, n ≤ sTiny.game.size ^ 2 * sTiny.game.numPlayers ∧
      ∃ w, runGame headOracle n sTiny = .finished w :=
  ⟨by decide, by decide,
    game_terminates_within_bound headOracle sTiny
      (fun g i vm h => by
        cases vm with
        | nil => exact absurd rfl h
        | cons d rest => exact ⟨d, List.mem_cons_self _ _, rfl⟩)
      (by decide) (by decide) ⟨⟨0, 0⟩, by decide, by decide⟩⟩

theorem upLeft_word_boundary_match_accepted :
    isWordChar '-' = false ∧
    dirWordAt (normalizeResponse "up-left".toList) 0 Direction.up = true ∧
    ParseDirection "up-left".toList [Direction.up, Direction.left] =
      .ok Direction.up := by
  refine ⟨by decide, by decide, rfl⟩

theorem dirString_injective (d1 d2 : Direction) (h : dirString d1 = dirString d2) :
    d1 = d2 := by
  cases d1 <;> cases d2 <;> first | rfl | exact absurd h (by decide)

theorem find?_exact (r : List Char) (valid : List Direction) (d : Direction)
    (hd : d ∈ valid) (hr : r = dirString d) :
    valid.find? (fun d2 => r == dirString d2) = some d := by
  induction valid with
  | nil => cases hd
  | cons a l ih =>
      simp only [List.find?]
      rcases List.mem_cons.mp hd with h | h
      · subst h
        have hbeq : (r == dirString d) = true := by simp [hr]
        rw [hbeq]
      · by_cases ha : (r == dirString a) = true
        · have hra : r = dirString a := by simpa using ha
          have hda : d = a := dirString_injective d a (by rw [← hr, hra])
          rw [ha, hda]
        · have ha2 : (r == dirString a) = false := by simpa using ha
          rw [ha2]
          exact ih h

theorem find?_exact_none (r : List Char) (valid : List Direction)
    (h : ∀ d ∈ valid, r ≠ dirString d) :
    valid.find? (fun d2 => r == dirString d2) = none := by
  apply List.find?_eq_none.mpr
  intro d hd
  simp only [beq_iff_eq]
  exact h d hd

theorem tryDirAt_some (r : List Char) (i : Nat) (d : Direction)
    (h : tryDirAt r i = some d) : dirWordAt r i d = true := by
  unfold tryDirAt at h
  split_ifs at h with h1 h2 h3 h4 <;> simp_all

theorem tryDirAt_none (r : List Char) (i : Nat) (h : tryDirAt r i = none) :
    ∀ d, dirWordAt r i d = false := by
  intro d
  unfold tryDirAt at h
  split_ifs at h with h1 h2 h3 h4
  cases d <;> simp only [Bool.not_eq_true] at h1 h2 h3 h4 <;> assumption

theorem scanFromIndex_some (r : List Char) (d : Direction) :
    ∀ (fuel i : Nat), scanFromIndex r i fuel = some d →
      ∃ k, i ≤ k ∧ tryDirAt r k = some d ∧
        ∀ j, i ≤ j → j < k → tryDirAt r j = none := by
  intro fuel
  induction fuel with
  | zero => intro i h; simp [scanFromIndex] at h
  | succ f ih =>
      intro i h
      simp only [scanFromIndex] at h
      cases htry : tryDirAt r i with
      | some d2 =>
          simp only [htry] at h
          have hd2 : d2 = d := Option.some.injEq _ _ ▸ h
          refine ⟨i, le_refl _, by rw [htry, hd2], ?_⟩
          intro j h1 h2
          omega
      | none =>
          simp only [htry] at h
          obtain ⟨k, hk1, hk2, hk3⟩ := ih (i + 1) h
          refine ⟨k, by omega, hk2, ?_⟩
          intro j hj1 hj2
          by_cases hji : j = i
          · rw [hji]
            exact htry
          · exact hk3 j (by omega) hj2

theorem scanFromIndex_none (r : List Char) :
    ∀ (fuel i : Nat), scanFromIndex r i fuel = none →
      ∀ j, i ≤ j → j < i + fuel → tryDirAt r j = none := by
  intro fuel
  induction fuel with
  | zero => intro i _ j h1 h2; omega
  | succ f ih =>
      intro i h j h1 h2
      simp only [scanFromIndex] at h
      cases htry : tryDirAt r i with
      | some d2 =>
          simp only [htry] at h
          exact Option.noConfusion h
      | none =>
          simp only [htry] at h
          by_cases hji : j = i
          · rw [hji]
            exact htry
          · exact ih (i + 1) h j (by omega) (by omega)

theorem dirWordAt_ge_len (r : List Char) (i : Nat) (d : Direction)
    (h : r.length ≤ i) : dirWordAt r i d = false := by
  have hdrop : List.drop i r = [] := List.drop_eq_nil_of_le h
  unfold dirWordAt wordAt
  rw [hdrop]
  have hpre : (dirString d).isPrefixOf ([] : List Char) = false := by
    cases d <;> rfl
  rw [hpre]
  simp

/-- C7: the parser lower-cases and trims the response; it accepts a
response exactly equal to a legal direction's name; otherwise it takes
the first standalone word-boundary occurrence of any of the four
direction words (`firstDirWord`, shown below to return the leftmost
standalone occurrence and to fail only when there is none) and accepts
it only when that word is legal, failing with a parse error otherwise;
in particular "I think you should go UP!" with legal set {up, left}
parses as up. -/
theorem parse_direction_follows_spec :
    (∀ (response : List Char) (valid : List Direction) (d : Direction),
      d ∈ valid → normalizeResponse response = dirString d →
      ParseDirection response valid = .ok d) ∧
    (∀ (response : List Char) (valid : List Direction),
      (∀ d ∈ valid, normalizeResponse response ≠ dirString d) →
      (∀ d : Direction, firstDirWord (normalizeResponse response) = some d →
        (d ∈ valid → ParseDirection response valid = .ok d) ∧
        (d ∉ valid → ParseDirection response valid = .error .directionNotValid)) ∧
      (firstDirWord (normalizeResponse response) = none →
        ParseDirection response valid = .error .couldNotParse)) ∧
    (∀ (r : List Char) (d : Direction), firstDirWord r = some d →
      ∃ i, dirWordAt r i d = true ∧
        ∀ (j : Nat) (d2 : Direction), dirWordAt r j d2 = true → i ≤ j) ∧
    (∀ r : List Char, firstDirWord r = none →
      ∀ (i : Nat) (d : Direction), dirWordAt r i d = false) ∧
    ParseDirection "I think you should go UP!".toList [Direction.up, Direction.left] =
      .ok Direction.up := by
  refine ⟨?_, ?_, ?_, ?_, rfl⟩
  · intro response valid d hd hr
    have h := find?_exact (normalizeResponse response) valid d hd hr
    simp [ParseDirection, h]
  · intro response valid hne
    have hfind := find?_exact_none (normalizeResponse response) valid hne
    constructor
    · intro d hfirst
      constructor
      · intro hmem
        simp [ParseDirection, hfind, hfirst, hmem]
      · intro hmem
        simp [ParseDirection, hfind, hfirst, hmem]
    · intro hnone
      simp [ParseDirection, hfind, hnone]
  · intro r d hfirst
    unfold firstDirWord at hfirst
    obtain ⟨k, _, hk2, hk3⟩ := scanFromIndex_some r d r.length 0 hfirst
    refine ⟨k, tryDirAt_some r k d hk2, ?_⟩
    intro j d2 hj
    by_contra hlt
    push_neg at hlt
    have hnone := hk3 j (Nat.zero_le _) hlt
    have hfalse := tryDirAt_none r j hnone d2
    rw [hj] at hfalse
    cases hfalse
  · intro r hnone i d
    by_cases hlen : r.length ≤ i
    · exact dirWordAt_ge_len r i d hlen
    · push_neg at hlen
      have htry := scanFromIndex_none r r.length 0 hnone i (Nat.zero_le _) (by omega)
      exact tryDirAt_none r i htry d

/-- C7 witness: the exact-match branch instantiated at the response
"up" with legal set {up}. -/
theorem parse_direction_follows_spec_witness :
    Direction.up ∈ [Direction.up] ∧
    normalizeResponse "up".toList = dirString Direction.up ∧
    ParseDirection "up".toList [Direction.up] = .ok Direction.up :=
  ⟨by decide, by decide,
    parse_direction_follows_spec.1 "up".toList [Direction.up] Direction.up
      (by decide) (by decide)⟩

end LlamaSnakes
